import Mathlib

/-!
Shallow embedding of `src/utils/xyzCleanup.js`, the animation-completion
coordinator: the Animation Metadata Reader (`toMs`, `getAnimMeta`), the
Participant Registry / Completion Tracker / Root Finalizer (`bindCleanup`,
`markDone`, `removeParentClass`, modelled as a state machine driven by
`animationend` events and fallback-timer expirations), and the Scope Scanner
(`xyzCleanup`).

Numbers are modelled as `ℚ` (the source uses JS floating point only for
finite decimal CSS time tokens such as "0.3s" or "300ms", where rational
arithmetic agrees). Elements are modelled by the data the source reads from
them; participants of one bind cycle are indexed by their position in the
`waitEls` list (the parent at index 0 followed by the `.xyz-nested`
descendants in document order).
-/

set_option maxRecDepth 400000

namespace Xyz

/-- The computed style triple read by `getAnimMeta` via `getComputedStyle`. -/
structure ComputedStyle where
  animationName : String
  animationDuration : String
  animationDelay : String
deriving DecidableEq

/-- The data of a DOM element that `xyzCleanup.js` reads: whether it is an
`Element` (`parent instanceof Element`), its class list, the
`data-xyz-cleanup-bound` dataset entry, and the outcome of `getComputedStyle`
(`none` models a throwing style read — the exception payload is discarded by
`catch (_)` in the source, so only the fact of the throw matters). -/
structure El where
  isElement : Bool
  classList : List String
  xyzCleanupBound : Option String
  style : Option ComputedStyle
deriving DecidableEq

/-- JS `String.prototype.trim`: drop whitespace from both ends. -/
def jsTrim (s : String) : String :=
  String.mk (((s.data.dropWhile Char.isWhitespace).reverse.dropWhile Char.isWhitespace).reverse)

/-- JS `String.prototype.split(',')` on the character list: split on every
comma, keeping empty groups (so `"" ↦ [""]`, `"a," ↦ ["a", ""]`). -/
def splitCommaAux : List Char → List (List Char)
  | [] => [[]]
  | c :: rest =>
    if c = ',' then [] :: splitCommaAux rest
    else
      match splitCommaAux rest with
      | g :: gs => (c :: g) :: gs
      | [] => [[c]]

/-- JS `String.prototype.split(',')`. -/
def jsSplitComma (s : String) : List String :=
  (splitCommaAux s.data).map String.mk

/-- JS `String.prototype.endsWith`. -/
def jsEndsWith (s post : String) : Bool :=
  post.data.isSuffixOf s.data

/-- Value of a list of decimal digit characters. -/
def digitsVal (l : List Char) : ℕ :=
  l.foldl (fun a c => a * 10 + (c.toNat - 48)) 0

/-- Model of JS `parseFloat` on the finite decimal literals produced by CSS
computed style (optional sign, digits, optional fraction, optional decimal
exponent; longest numeric prefix is parsed, e.g. `parseFloat "0.3s" = 0.3`).
`none` models `NaN` (no parsable prefix). -/
def jsParseFloat (s : String) : Option ℚ :=
  let l := s.data.dropWhile Char.isWhitespace
  let sgn : ℚ := match l with
    | '-' :: _ => -1
    | _ => 1
  let l := match l with
    | '-' :: rest => rest
    | '+' :: rest => rest
    | _ => l
  let intPart := l.takeWhile Char.isDigit
  let l := l.dropWhile Char.isDigit
  let fracPart := match l with
    | '.' :: rest => rest.takeWhile Char.isDigit
    | _ => []
  let l := match l with
    | '.' :: rest => rest.dropWhile Char.isDigit
    | _ => l
  if intPart.isEmpty ∧ fracPart.isEmpty then none
  else
    let mantissa : ℚ :=
      (digitsVal intPart : ℚ) + (digitsVal fracPart : ℚ) / ((10 ^ fracPart.length : ℕ) : ℚ)
    let expVal : ℤ := match l with
      | 'e' :: rest | 'E' :: rest =>
        let esgn : ℤ := match rest with
          | '-' :: _ => -1
          | _ => 1
        let rest := match rest with
          | '-' :: r => r
          | '+' :: r => r
          | _ => rest
        let eds := rest.takeWhile Char.isDigit
        if eds.isEmpty then 0 else esgn * digitsVal eds
      | _ => 0
    let powTen : ℚ :=
      if 0 ≤ expVal then ((10 ^ expVal.toNat : ℕ) : ℚ) else (((10 ^ (-expVal).toNat : ℕ) : ℚ))⁻¹
    some (sgn * mantissa * powTen)

/-- Model of `toMs` from the source: trim the token; empty tokens are 0; tokens ending
in "ms" are taken as-is; other tokens are seconds and multiplied by 1000;
unparsable tokens (`parseFloat` gives `NaN`, i.e. `none`) resolve to 0 via
`|| 0`. -/
def toMs (v : String) : ℚ :=
  let s := jsTrim v
  if s = "" then 0
  else if jsEndsWith s "ms" then (jsParseFloat s).getD 0
  else (jsParseFloat s).getD 0 * 1000

/-- One `{name, duration, delay}` record built inside `getAnimMeta`. -/
structure AnimRec where
  name : String
  duration : ℚ
  delay : ℚ
deriving DecidableEq

/-- The `{expectedCount, maxMs}` result of `getAnimMeta`. -/
structure AnimMeta where
  expectedCount : ℕ
  maxMs : ℚ
deriving DecidableEq

/-- Model of `getAnimMeta` from the source: split the computed `animation-name` /
`animation-duration` / `animation-delay` lists on commas, convert times with
`toMs`, pair them up positionally (`durations[i] || 0`), filter out entries
whose name is empty or "none" or whose duration is not positive, and return
the filtered length together with `reduce (max acc (duration + delay)) 0`.
A throwing style read is caught and yields `{expectedCount 0, maxMs 0}`. -/
def getAnimMeta (el : El) : AnimMeta :=
  match el.style with
  | none => { expectedCount := 0, maxMs := 0 }
  | some cs =>
    let names := (jsSplitComma cs.animationName).map jsTrim
    let durations := (jsSplitComma cs.animationDuration).map toMs
    let delays := (jsSplitComma cs.animationDelay).map toMs
    let active := (names.mapIdx fun i n =>
        ({ name := n, duration := durations.getD i 0, delay := delays.getD i 0 } : AnimRec)).filter
      fun a => decide (a.name ≠ "" ∧ a.name ≠ "none" ∧ 0 < a.duration)
    { expectedCount := active.length
      maxMs := active.foldl (fun acc a => max acc (a.duration + a.delay)) 0 }

/-- The per-bind mutable state of `bindCleanup`'s closures, for one Root.
Participants are indexed by position in `waitEls = parent :: nested`.
`timers` is the `timers : Map` of the source (`some d` = a live fallback
timer with delay `d`, `none` = absent/cleared); `ended` the per-participant
`ended` counters; `expected` the captured `expectedCount`s; `listeners`
records which participants got an `animationend` listener (never removed);
`remaining` the remaining-count; `removeCount` the number of times
`removeParentClass` has run (the source's only finalization side effect is
`parent.classList.remove('xyz-in')`, reflected in `parentClasses`). -/
structure TrackState where
  parentClasses : List String
  parentBound : Option String
  expected : List ℕ
  listeners : List Bool
  timers : List (Option ℚ)
  ended : List ℕ
  remaining : ℤ
  removeCount : ℕ
deriving DecidableEq

/-- Model of `removeParentClass` from the source: `parent.classList.remove('xyz-in')`
(the commented-out logging reads clocks only). `removeCount` counts the
invocations so that "fires exactly once" is statable. -/
def removeParentClass (s : TrackState) : TrackState :=
  { s with
    parentClasses := s.parentClasses.filter (fun c => c != "xyz-in")
    removeCount := s.removeCount + 1 }

/-- Model of `markDone(el)` from the source: a no-op unless `el` still has a live
fallback timer; otherwise clear and delete the timer, decrement `remaining`,
and call `removeParentClass` when `remaining <= 0`. -/
def markDone (i : ℕ) (s : TrackState) : TrackState :=
  match s.timers.getD i none with
  | none => s
  | some _ =>
    let s' := { s with timers := s.timers.set i none, remaining := s.remaining - 1 }
    if s'.remaining ≤ 0 then removeParentClass s' else s'

/-- Whether `bindCleanup` registers a participant for tracking: the source
skips it when `expectedCount === 0 || maxMs === 0` ("if no active
animations, consider this element done immediately"). -/
def trackedB (m : AnimMeta) : Bool :=
  !(decide (m.expectedCount = 0 ∨ m.maxMs = 0))

/-- Model of `bindCleanup(parent)` from the source, up to the end of its synchronous
body. `none` models the early returns (not an `Element`, no `xyz-in` class,
or already bound): nothing happens at all. Otherwise the bound marker is set,
`waitEls = [parent, ...parent.querySelectorAll('.xyz-nested')]` is walked —
each participant with active animations gets `remaining++`, an
`animationend` listener and a fallback timer `setTimeout(maxMs + 50)` — and
finally `removeParentClass()` runs at once if `remaining === 0`. -/
def bindCleanup (parent : El) (nested : List El) : Option TrackState :=
  if !parent.isElement then none
  else if !(parent.classList.contains "xyz-in") then none
  else if parent.xyzCleanupBound == some "1" then none
  else
    let waitEls := parent :: nested
    let metas := waitEls.map getAnimMeta
    let s0 : TrackState :=
      { parentClasses := parent.classList
        parentBound := some "1"
        expected := metas.map AnimMeta.expectedCount
        listeners := metas.map trackedB
        timers := metas.map (fun m => if trackedB m then some (m.maxMs + 50) else none)
        ended := metas.map (fun _ => 0)
        remaining := (metas.countP trackedB : ℤ)
        removeCount := 0 }
    some (if s0.remaining = 0 then removeParentClass s0 else s0)

/-- An asynchronous occurrence delivered to one bind cycle's closures:
either the browser fires `animationend` on participant `i` (running the
`onEnd` closure if a listener was attached), or participant `i`'s fallback
timeout elapses (running `() => markDone(el)`; if the timer was already
cleared the callback never runs, which coincides with `markDone`'s
`!timers.has(el)` guard making it a no-op, so delivering the event is
harmless either way). -/
inductive Event where
  | animEnd (i : ℕ)
  | timerFire (i : ℕ)
deriving DecidableEq

/-- One event delivery. `animEnd i` is the `onEnd` closure: `ended++`, then
`markDone(el)` once `ended >= expectedCount`; listeners are never removed,
so this runs even after the participant is done (where `markDone` no-ops). -/
def step (s : TrackState) (e : Event) : TrackState :=
  match e with
  | .animEnd i =>
    if s.listeners.getD i false then
      let s' := { s with ended := s.ended.set i (s.ended.getD i 0 + 1) }
      if s'.expected.getD i 0 ≤ s'.ended.getD i 0 then markDone i s' else s'
    else s
  | .timerFire i => markDone i s

/-- Deliver a sequence of events to a bind cycle's state, in order. The
event loop is single-threaded, so any real execution is some such
interleaving. -/
def runTrack (s : TrackState) (evs : List Event) : TrackState :=
  evs.foldl step s

/-- A queryable scope (`document` or an injected fragment): `canQuery`
models `root.querySelectorAll` being present, `roots` the result of
`querySelectorAll('.xyz-in')` paired with each root's `.xyz-nested`
descendants, in document order. -/
structure Scope where
  canQuery : Bool
  roots : List (El × List El)
deriving DecidableEq

/-- Model of `xyzCleanup(root)` from the source: scan `root` if it is truthy and has
`querySelectorAll`, else fall back to `document`; feed every `.xyz-in` node
of the chosen scope to `bindCleanup`. The returned list holds each scanned
root's bind outcome (`none` = that root was left untouched). -/
def xyzCleanup (root : Option Scope) (doc : Scope) : List (Option TrackState) :=
  let scope := match root with
    | some r => if r.canQuery then r else doc
    | none => doc
  scope.roots.map fun pr => bindCleanup pr.1 pr.2

/-- Number of `animationend` deliveries to participant `i` in a trace. -/
def countAnim (i : ℕ) (evs : List Event) : ℕ :=
  evs.countP fun e => decide (e = Event.animEnd i)

/-- A trace that settles every tracked participant of the bind cycle: each
participant that was registered (got a listener, equivalently a fallback
timer) either has its fallback timeout elapse somewhere in the trace, or
receives at least its expected number of `animationend` events. Every real
browser schedule satisfies this: a pending timeout always eventually fires,
and a cleared one was cleared by the `markDone` of an earlier completion. -/
def completeFor (st : TrackState) (evs : List Event) : Prop :=
  ∀ i < st.listeners.length, st.listeners.getD i false = true →
    Event.timerFire i ∈ evs ∨ st.expected.getD i 0 ≤ countAnim i evs

instance (st : TrackState) (evs : List Event) : Decidable (completeFor st evs) := by
  unfold completeFor
  infer_instance

/-- The inductive invariant of one bind cycle: the remaining-count equals
the number of live fallback timers, `removeParentClass` has run exactly once
if the remaining-count is zero and never otherwise, and the `xyz-in` marker
is present iff finalization has not happened. -/
def Inv (s : TrackState) : Prop :=
  s.remaining = (s.timers.countP Option.isSome : ℤ) ∧
  s.removeCount = (if s.remaining = 0 then 1 else 0) ∧
  ("xyz-in" ∈ s.parentClasses ↔ s.removeCount = 0)

/-- Maximum of a list of rationals, 0 for the empty list. Written from the
spec's words "the maximum of `duration + delay` across the filtered list
(0 if empty)": the fold starts at the first element, not at 0. -/
def maxOfList (l : List ℚ) : ℚ :=
  match l with
  | [] => 0
  | a :: t => t.foldl max a

/-- Modelled from the spec (§4.1), for comparison with `getAnimMeta`:
"Produces a filtered list of `\x7bname, duration, delay\x7d` excluding
entries whose name is absent/none or whose duration is 0. Returns
`expectedCount` = the filtered list's length and `maxMs` = the maximum of
`duration + delay` across the filtered list (0 if empty)." Token conversion
is the behaviour the spec describes for the reader, shared with the source
model as `toMs`. -/
def specGetAnimMeta (el : El) : AnimMeta :=
  match el.style with
  | none => { expectedCount := 0, maxMs := 0 }
  | some cs =>
    let names := (jsSplitComma cs.animationName).map jsTrim
    let durations := (jsSplitComma cs.animationDuration).map toMs
    let delays := (jsSplitComma cs.animationDelay).map toMs
    let active := (names.mapIdx fun i n =>
        ({ name := n, duration := durations.getD i 0, delay := delays.getD i 0 } : AnimRec)).filter
      fun a => decide (a.name ≠ "" ∧ a.name ≠ "none" ∧ a.duration ≠ 0)
    { expectedCount := active.length
      maxMs := maxOfList (active.map fun a => a.duration + a.delay) }

/-- The amended spec-side reader: as `specGetAnimMeta`, but `maxMs` is the
maximum of 0 and the `duration + delay` values — never negative, because the
source folds `Math.max` starting from 0. -/
def specGetAnimMetaAmended (el : El) : AnimMeta :=
  match el.style with
  | none => { expectedCount := 0, maxMs := 0 }
  | some cs =>
    let names := (jsSplitComma cs.animationName).map jsTrim
    let durations := (jsSplitComma cs.animationDuration).map toMs
    let delays := (jsSplitComma cs.animationDelay).map toMs
    let active := (names.mapIdx fun i n =>
        ({ name := n, duration := durations.getD i 0, delay := delays.getD i 0 } : AnimRec)).filter
      fun a => decide (a.name ≠ "" ∧ a.name ≠ "none" ∧ a.duration ≠ 0)
    { expectedCount := active.length
      maxMs := max 0 (maxOfList (active.map fun a => a.duration + a.delay)) }

/-- A root with one active animation: `animation: a 1s` (so `maxMs = 1000`,
fallback delay `1050`). -/
def rootOneAnim : El :=
  { isElement := true, classList := ["xyz-in"], xyzCleanupBound := none
    style := some ⟨"a", "1s", "0s"⟩ }

/-- A root with no active animation (`animation-name: none`). -/
def rootNoAnim : El :=
  { isElement := true, classList := ["xyz-in"], xyzCleanupBound := none
    style := some ⟨"none", "0s", "0s"⟩ }

/-- A root with one active animation whose negative delay swallows the
duration: `animation: a 1s -2s`, so `expectedCount = 1` but the folded
`maxMs` is `max 0 (1000 - 2000) = 0`. -/
def rootNegDelay : El :=
  { isElement := true, classList := ["xyz-in"], xyzCleanupBound := none
    style := some ⟨"a", "1s", "-2s"⟩ }

/-- A root whose style read throws. -/
def rootStyleThrows : El :=
  { isElement := true, classList := ["xyz-in"], xyzCleanupBound := none, style := none }

/-- A nested participant with one active animation: `animation: b 2s`. -/
def nestedOneAnim : El :=
  { isElement := true, classList := ["xyz-nested"], xyzCleanupBound := none
    style := some ⟨"b", "2s", "0s"⟩ }

/-- The tracker state right after `bindCleanup rootOneAnim []`. -/
def stOneAnim : TrackState :=
  { parentClasses := ["xyz-in"], parentBound := some "1", expected := [1]
    listeners := [true], timers := [some 1050], ended := [0]
    remaining := 1, removeCount := 0 }

/-- The tracker state right after `bindCleanup rootOneAnim [nestedOneAnim]`. -/
def stTwoAnim : TrackState :=
  { parentClasses := ["xyz-in"], parentBound := some "1", expected := [1, 1]
    listeners := [true, true], timers := [some 1050, some 2050], ended := [0, 0]
    remaining := 2, removeCount := 0 }

/-- The tracker state right after `bindCleanup rootNegDelay []`: the lone
participant is skipped, so the fast path finalizes immediately. -/
def stNegDelay : TrackState :=
  { parentClasses := [], parentBound := some "1", expected := [1]
    listeners := [false], timers := [none], ended := [0]
    remaining := 0, removeCount := 1 }

/-- A root that is already marked bound. -/
def boundRoot : El :=
  { isElement := true, classList := ["xyz-in"], xyzCleanupBound := some "1"
    style := some ⟨"a", "1s", "0s"⟩ }

/-- The tracker state right after `bindCleanup rootNoAnim []`: nothing to
wait for, so the fast path finalizes immediately. -/
def stNoAnim : TrackState :=
  { parentClasses := [], parentBound := some "1", expected := [0]
    listeners := [false], timers := [none], ended := [0]
    remaining := 0, removeCount := 1 }

/-- A document whose only `.xyz-in` element is `rootNoAnim`. -/
def docOneRoot : Scope :=
  { canQuery := true, roots := [(rootNoAnim, [])] }

/-- A scope value that does not support `querySelectorAll` (for instance a
plain object or a text node passed by mistake). -/
def badScope : Scope :=
  { canQuery := false, roots := [] }

/-! ### List helper lemmas -/

theorem getD_set_self_of_lt {α : Type} (l : List α) {i : ℕ} (v d : α) (h : i < l.length) :
    (l.set i v).getD i d = v := by
  simp [List.getD_eq_getElem?_getD, List.getElem?_set_self h]

theorem getD_set_none_self (l : List (Option ℚ)) (i : ℕ) :
    (l.set i none).getD i none = none := by
  rcases lt_or_le i l.length with h | h
  · exact getD_set_self_of_lt l none none h
  · rw [List.getD_eq_getElem?_getD,
      List.getElem?_eq_none (by simpa [List.length_set] using h)]
    rfl

theorem getD_set_ne {α : Type} (l : List α) {i j : ℕ} (v d : α) (h : i ≠ j) :
    (l.set i v).getD j d = l.getD j d := by
  simp [List.getD_eq_getElem?_getD, List.getElem?_set_ne h]

theorem lt_length_of_getD_some {l : List (Option ℚ)} {i : ℕ} {q : ℚ}
    (h : l.getD i none = some q) : i < l.length := by
  by_contra hge
  push_neg at hge
  simp [List.getD_eq_getElem?_getD, List.getElem?_eq_none hge] at h

theorem countP_set_none (l : List (Option ℚ)) :
    ∀ i : ℕ, (∃ q, l.getD i none = some q) →
      (l.set i none).countP Option.isSome + 1 = l.countP Option.isSome := by
  induction l with
  | nil =>
    intro i ⟨q, h⟩
    simp [List.getD_eq_getElem?_getD] at h
  | cons a t ih =>
    intro i ⟨q, h⟩
    cases i with
    | zero =>
      simp only [List.getD_cons_zero] at h
      simp [List.set, List.countP_cons, h]
    | succ n =>
      simp only [List.getD_cons_succ] at h
      have := ih n ⟨q, h⟩
      simp only [List.set, List.countP_cons]
      omega

theorem countP_pos_of_getD_some {l : List (Option ℚ)} {i : ℕ} {q : ℚ}
    (h : l.getD i none = some q) : 0 < l.countP Option.isSome := by
  have hi := lt_length_of_getD_some h
  have hget : l[i] = some q := by
    rw [List.getD_eq_getElem?_getD, List.getElem?_eq_getElem hi] at h
    simpa using h
  exact List.countP_pos_iff.mpr ⟨some q, hget ▸ List.getElem_mem hi, rfl⟩

theorem countP_eq_zero_of_all_none {l : List (Option ℚ)}
    (h : ∀ i, l.getD i none = none) : l.countP Option.isSome = 0 := by
  refine List.countP_eq_zero.mpr ?_
  intro a ha
  obtain ⟨i, hi, rfl⟩ := List.mem_iff_getElem.mp ha
  have := h i
  rw [List.getD_eq_getElem?_getD, List.getElem?_eq_getElem hi] at this
  simp only [Option.getD_some] at this
  simp [this]

theorem le_foldl_max (l : List AnimRec) :
    ∀ q : ℚ, q ≤ l.foldl (fun acc a => max acc (a.duration + a.delay)) q := by
  induction l with
  | nil => intro q; simp
  | cons a t ih =>
    intro q
    calc q ≤ max q (a.duration + a.delay) := le_max_left _ _
    _ ≤ t.foldl (fun acc a => max acc (a.duration + a.delay)) (max q (a.duration + a.delay)) :=
      ih _

theorem foldl_max_shift (l : List ℚ) :
    ∀ a b : ℚ, l.foldl max (max a b) = max a (l.foldl max b) := by
  induction l with
  | nil => intro a b; simp
  | cons c t ih =>
    intro a b
    show t.foldl max (max (max a b) c) = max a (t.foldl max (max b c))
    rw [max_assoc, ih]

theorem foldl_max_zero (l : List ℚ) : l.foldl max 0 = max 0 (maxOfList l) := by
  cases l with
  | nil => simp [maxOfList]
  | cons a t =>
    show t.foldl max (max 0 a) = max 0 (maxOfList (a :: t))
    rw [foldl_max_shift]
    rfl

/-! ### Equations and frame lemmas for the tracker -/

theorem markDone_of_none {s : TrackState} {i : ℕ} (h : s.timers.getD i none = none) :
    markDone i s = s := by
  unfold markDone
  rw [h]

theorem markDone_of_some {s : TrackState} {i : ℕ} {q : ℚ} (h : s.timers.getD i none = some q) :
    markDone i s =
      (if s.remaining - 1 ≤ 0
       then removeParentClass
         { s with timers := s.timers.set i none, remaining := s.remaining - 1 }
       else { s with timers := s.timers.set i none, remaining := s.remaining - 1 }) := by
  unfold markDone
  rw [h]

theorem markDone_ended (i : ℕ) (s : TrackState) : (markDone i s).ended = s.ended := by
  cases h : s.timers.getD i none with
  | none => rw [markDone_of_none h]
  | some q => rw [markDone_of_some h]; split <;> rfl

theorem markDone_listeners (i : ℕ) (s : TrackState) :
    (markDone i s).listeners = s.listeners := by
  cases h : s.timers.getD i none with
  | none => rw [markDone_of_none h]
  | some q => rw [markDone_of_some h]; split <;> rfl

theorem markDone_expected (i : ℕ) (s : TrackState) : (markDone i s).expected = s.expected := by
  cases h : s.timers.getD i none with
  | none => rw [markDone_of_none h]
  | some q => rw [markDone_of_some h]; split <;> rfl

theorem markDone_timers_self (i : ℕ) (s : TrackState) :
    (markDone i s).timers.getD i none = none := by
  cases h : s.timers.getD i none with
  | none => rw [markDone_of_none h]; exact h
  | some q =>
    rw [markDone_of_some h]
    split <;> exact getD_set_none_self s.timers i

theorem markDone_timers_ne {i j : ℕ} (hne : j ≠ i) (s : TrackState) :
    (markDone i s).timers.getD j none = s.timers.getD j none := by
  cases h : s.timers.getD i none with
  | none => rw [markDone_of_none h]
  | some q =>
    rw [markDone_of_some h]
    split <;> exact getD_set_ne s.timers none none (Ne.symm hne)

theorem step_timerFire (s : TrackState) (i : ℕ) : step s (.timerFire i) = markDone i s := rfl

theorem step_animEnd_silent {s : TrackState} {i : ℕ}
    (h : s.listeners.getD i false = false) : step s (.animEnd i) = s := by
  show (if s.listeners.getD i false then _ else s) = s
  rw [h]
  rfl

theorem step_animEnd_heard {s : TrackState} {i : ℕ}
    (h : s.listeners.getD i false = true) :
    step s (.animEnd i) =
      (let s' : TrackState := { s with ended := s.ended.set i (s.ended.getD i 0 + 1) }
       if s'.expected.getD i 0 ≤ s'.ended.getD i 0 then markDone i s' else s') := by
  show (if s.listeners.getD i false then _ else s) = _
  rw [h]
  rfl

theorem step_listeners (s : TrackState) (e : Event) : (step s e).listeners = s.listeners := by
  cases e with
  | animEnd i =>
    cases h : s.listeners.getD i false with
    | false => rw [step_animEnd_silent h]
    | true =>
      rw [step_animEnd_heard h]
      simp only []
      split
      · rw [markDone_listeners]
      · rfl
  | timerFire i => rw [step_timerFire, markDone_listeners]

theorem step_expected (s : TrackState) (e : Event) : (step s e).expected = s.expected := by
  cases e with
  | animEnd i =>
    cases h : s.listeners.getD i false with
    | false => rw [step_animEnd_silent h]
    | true =>
      rw [step_animEnd_heard h]
      simp only []
      split
      · rw [markDone_expected]
      · rfl
  | timerFire i => rw [step_timerFire, markDone_expected]

theorem step_timers_none {s : TrackState} {i : ℕ}
    (h : s.timers.getD i none = none) (e : Event) :
    (step s e).timers.getD i none = none := by
  have base : ∀ t : TrackState, t.timers.getD i none = none →
      ∀ j, (markDone j t).timers.getD i none = none := by
    intro t ht j
    by_cases hji : j = i
    · subst hji; exact markDone_timers_self j t
    · rw [markDone_timers_ne (fun hij => hji hij.symm) t]; exact ht
  cases e with
  | animEnd j =>
    cases hl : s.listeners.getD j false with
    | false => rw [step_animEnd_silent hl]; exact h
    | true =>
      rw [step_animEnd_heard hl]
      simp only []
      split
      · exact base { s with ended := s.ended.set j (s.ended.getD j 0 + 1) } h j
      · exact h
  | timerFire j => rw [step_timerFire]; exact base s h j

theorem runTrack_nil (s : TrackState) : runTrack s [] = s := rfl

theorem runTrack_cons (s : TrackState) (e : Event) (evs : List Event) :
    runTrack s (e :: evs) = runTrack (step s e) evs := rfl

theorem runTrack_append (s : TrackState) (l₁ l₂ : List Event) :
    runTrack s (l₁ ++ l₂) = runTrack (runTrack s l₁) l₂ :=
  List.foldl_append step s l₁ l₂

theorem runTrack_timers_none {i : ℕ} :
    ∀ (evs : List Event) (s : TrackState), s.timers.getD i none = none →
      (runTrack s evs).timers.getD i none = none := by
  intro evs
  induction evs with
  | nil => intro s h; exact h
  | cons e rest ih =>
    intro s h
    rw [runTrack_cons]
    exact ih _ (step_timers_none h e)

theorem runTrack_listeners (evs : List Event) :
    ∀ s : TrackState, (runTrack s evs).listeners = s.listeners := by
  induction evs with
  | nil => intro s; rfl
  | cons e rest ih =>
    intro s
    rw [runTrack_cons, ih, step_listeners]

/-! ### The invariant -/

theorem removeParentClass_remaining (s : TrackState) :
    (removeParentClass s).remaining = s.remaining := rfl

theorem removeParentClass_timers (s : TrackState) :
    (removeParentClass s).timers = s.timers := rfl

theorem removeParentClass_removeCount (s : TrackState) :
    (removeParentClass s).removeCount = s.removeCount + 1 := rfl

theorem removeParentClass_parentClasses (s : TrackState) :
    (removeParentClass s).parentClasses = s.parentClasses.filter (fun c => c != "xyz-in") := rfl

theorem not_mem_filter_xyzin (l : List String) :
    "xyz-in" ∉ l.filter (fun c => c != "xyz-in") := by
  intro hmem
  rw [List.mem_filter] at hmem
  simp at hmem

theorem inv_markDone {s : TrackState} (h : Inv s) (i : ℕ) : Inv (markDone i s) := by
  obtain ⟨h1, h2, h3⟩ := h
  cases ht : s.timers.getD i none with
  | none => rw [markDone_of_none ht]; exact ⟨h1, h2, h3⟩
  | some q =>
    rw [markDone_of_some ht]
    have hcount := countP_set_none s.timers i ⟨q, ht⟩
    have hpos : 0 < s.timers.countP Option.isSome := countP_pos_of_getD_some ht
    split
    next hle =>
      have hrem : s.remaining = 1 := by omega
      refine ⟨?_, ?_, ?_⟩
      · rw [removeParentClass_remaining, removeParentClass_timers]
        show s.remaining - 1 = (((s.timers.set i none).countP Option.isSome : ℕ) : ℤ)
        omega
      · rw [removeParentClass_removeCount, removeParentClass_remaining]
        show s.removeCount + 1 = if s.remaining - 1 = 0 then 1 else 0
        rw [hrem] at h2 ⊢
        simp at h2
        simp [h2]
      · rw [removeParentClass_parentClasses, removeParentClass_removeCount]
        show _ ↔ s.removeCount + 1 = 0
        simp [not_mem_filter_xyzin]
    next hgt =>
      refine ⟨?_, ?_, ?_⟩
      · show s.remaining - 1 = (((s.timers.set i none).countP Option.isSome : ℕ) : ℤ)
        omega
      · show s.removeCount = if s.remaining - 1 = 0 then 1 else 0
        have hne : ¬(s.remaining = 0) := by omega
        have hne' : ¬(s.remaining - 1 = 0) := by omega
        rw [if_neg hne] at h2
        rw [if_neg hne']
        exact h2
      · exact h3

theorem inv_step {s : TrackState} (h : Inv s) (e : Event) : Inv (step s e) := by
  cases e with
  | animEnd i =>
    cases hl : s.listeners.getD i false with
    | false => rw [step_animEnd_silent hl]; exact h
    | true =>
      rw [step_animEnd_heard hl]
      simp only []
      have h' : Inv { s with ended := s.ended.set i (s.ended.getD i 0 + 1) } := h
      split
      · exact inv_markDone h' i
      · exact h'
  | timerFire i => rw [step_timerFire]; exact inv_markDone h i

theorem inv_runTrack (evs : List Event) :
    ∀ s : TrackState, Inv s → Inv (runTrack s evs) := by
  induction evs with
  | nil => intro s h; exact h
  | cons e rest ih =>
    intro s h
    rw [runTrack_cons]
    exact ih _ (inv_step h e)

/-! ### Shape of a freshly bound tracker state -/

theorem bindCleanup_some_fields {parent : El} {nested : List El} {st : TrackState}
    (h : bindCleanup parent nested = some st) :
    st.parentBound = some "1" ∧
    st.expected = ((parent :: nested).map getAnimMeta).map AnimMeta.expectedCount ∧
    st.listeners = ((parent :: nested).map getAnimMeta).map trackedB ∧
    st.timers = ((parent :: nested).map getAnimMeta).map
      (fun m => if trackedB m then some (m.maxMs + 50) else none) ∧
    st.ended = ((parent :: nested).map getAnimMeta).map (fun _ => 0) ∧
    st.remaining = (((parent :: nested).map getAnimMeta).countP trackedB : ℤ) := by
  unfold bindCleanup at h
  split at h
  · exact absurd h (by simp)
  · split at h
    · exact absurd h (by simp)
    · split at h
      · exact absurd h (by simp)
      · rw [Option.some_inj] at h
        subst h
        split <;> exact ⟨rfl, rfl, rfl, rfl, rfl, rfl⟩

theorem inv_bindCleanup {parent : El} {nested : List El} {st : TrackState}
    (h : bindCleanup parent nested = some st) : Inv st := by
  have hcountP :
      (((parent :: nested).map getAnimMeta).map
          (fun m => if trackedB m then some (m.maxMs + 50) else none)).countP
        Option.isSome = ((parent :: nested).map getAnimMeta).countP trackedB := by
    rw [List.countP_map]
    apply List.countP_congr
    intro m _
    cases htm : trackedB m <;> simp [Function.comp, htm]
  unfold bindCleanup at h
  split at h
  · exact absurd h (by simp)
  · split at h
    · exact absurd h (by simp)
    next hcls =>
      have hmem : "xyz-in" ∈ parent.classList := by
        simpa using hcls
      split at h
      · exact absurd h (by simp)
      · rw [Option.some_inj] at h
        subst h
        split
        next hzero =>
          refine ⟨?_, ?_, ?_⟩
          · rw [removeParentClass_remaining, removeParentClass_timers]
            show ((((parent :: nested).map getAnimMeta).countP trackedB : ℕ) : ℤ) =
              (((((parent :: nested).map getAnimMeta).map
                  (fun m => if trackedB m then some (m.maxMs + 50) else none)).countP
                Option.isSome : ℕ) : ℤ)
            rw [hcountP]
          · rw [removeParentClass_removeCount, removeParentClass_remaining, if_pos hzero]
          · rw [removeParentClass_parentClasses, removeParentClass_removeCount]
            constructor
            · intro hin
              exact absurd hin (not_mem_filter_xyzin _)
            · intro hcnt
              exact absurd hcnt (by simp)
        next hnz =>
          refine ⟨?_, ?_, ?_⟩
          · show ((((parent :: nested).map getAnimMeta).countP trackedB : ℕ) : ℤ) =
              (((((parent :: nested).map getAnimMeta).map
                  (fun m => if trackedB m then some (m.maxMs + 50) else none)).countP
                Option.isSome : ℕ) : ℤ)
            rw [hcountP]
          · show (0 : ℕ) = if _ then 1 else 0
            rw [if_neg hnz]
          · show "xyz-in" ∈ parent.classList ↔ (0 : ℕ) = 0
            simp [hmem]

/-! ### Counting animationend deliveries -/

theorem countAnim_nil (i : ℕ) : countAnim i [] = 0 := rfl

theorem countAnim_cons_self (i : ℕ) (rest : List Event) :
    countAnim i (Event.animEnd i :: rest) = countAnim i rest + 1 := by
  simp [countAnim, List.countP_cons]

theorem countAnim_cons_animEnd_ne {i j : ℕ} (h : j ≠ i) (rest : List Event) :
    countAnim i (Event.animEnd j :: rest) = countAnim i rest := by
  simp [countAnim, List.countP_cons, h]

theorem countAnim_cons_timerFire (i j : ℕ) (rest : List Event) :
    countAnim i (Event.timerFire j :: rest) = countAnim i rest := by
  simp [countAnim, List.countP_cons]

theorem getD_map_lt {α β : Type} (f : α → β) (l : List α) {i : ℕ} (h : i < l.length) (d : β) :
    (l.map f).getD i d = f l[i] := by
  rw [List.getD_eq_getElem?_getD, List.getElem?_map, List.getElem?_eq_getElem h]
  rfl

theorem getD_map_ge {α β : Type} (f : α → β) (l : List α) {i : ℕ} (h : l.length ≤ i) (d : β) :
    (l.map f).getD i d = d := by
  rw [List.getD_eq_getElem?_getD, List.getElem?_map, List.getElem?_eq_none h]
  rfl

/-! ### Event-path completion and pending preservation -/

theorem run_done_of_enough_ends :
    ∀ (evs : List Event) (s : TrackState) (i : ℕ),
      s.listeners.getD i false = true →
      i < s.ended.length →
      s.ended.getD i 0 < s.expected.getD i 0 →
      s.expected.getD i 0 ≤ s.ended.getD i 0 + countAnim i evs →
      (runTrack s evs).timers.getD i none = none := by
  intro evs
  induction evs with
  | nil =>
    intro s i _ _ hlt hle
    rw [countAnim_nil] at hle
    omega
  | cons e rest ih =>
    intro s i hl hlen hlt hle
    rw [runTrack_cons]
    cases e with
    | animEnd j =>
      by_cases hj : j = i
      · subst hj
        rw [step_animEnd_heard hl]
        simp only []
        split
        next hge =>
          exact runTrack_timers_none rest _ (markDone_timers_self j _)
        next hnge =>
          refine ih _ j hl ?_ ?_ ?_
          · simpa [List.length_set] using hlen
          · exact lt_of_not_le hnge
          · have hend' :
                ((s.ended.set j (s.ended.getD j 0 + 1)).getD j 0) = s.ended.getD j 0 + 1 :=
              getD_set_self_of_lt _ _ _ hlen
            rw [countAnim_cons_self] at hle
            show s.expected.getD j 0 ≤ _ + countAnim j rest
            rw [hend']
            omega
      · have hcnt : countAnim i (Event.animEnd j :: rest) = countAnim i rest :=
          countAnim_cons_animEnd_ne hj rest
        rw [hcnt] at hle
        cases hlj : s.listeners.getD j false with
        | false =>
          rw [step_animEnd_silent hlj]
          exact ih s i hl hlen hlt hle
        | true =>
          rw [step_animEnd_heard hlj]
          simp only []
          have hend_i :
              ((s.ended.set j (s.ended.getD j 0 + 1)).getD i 0) = s.ended.getD i 0 :=
            getD_set_ne _ _ _ hj
          have hlen' : i < (s.ended.set j (s.ended.getD j 0 + 1)).length := by
            simpa [List.length_set] using hlen
          split
          next =>
            refine ih _ i ?_ ?_ ?_ ?_
            · rw [markDone_listeners]; exact hl
            · rw [markDone_ended]; exact hlen'
            · rw [markDone_ended, markDone_expected]
              show _ < s.expected.getD i 0
              rw [hend_i]; exact hlt
            · rw [markDone_ended, markDone_expected]
              show s.expected.getD i 0 ≤ _ + countAnim i rest
              rw [hend_i]; exact hle
          next =>
            refine ih _ i hl hlen' ?_ ?_
            · show _ < s.expected.getD i 0
              rw [hend_i]; exact hlt
            · show s.expected.getD i 0 ≤ _ + countAnim i rest
              rw [hend_i]; exact hle
    | timerFire j =>
      rw [step_timerFire]
      by_cases hj : j = i
      · subst hj
        exact runTrack_timers_none rest _ (markDone_timers_self j s)
      · rw [countAnim_cons_timerFire] at hle
        refine ih _ i ?_ ?_ ?_ ?_
        · rw [markDone_listeners]; exact hl
        · rw [markDone_ended]; exact hlen
        · rw [markDone_ended, markDone_expected]; exact hlt
        · rw [markDone_ended, markDone_expected]; exact hle

theorem run_pending_of_not_enough :
    ∀ (evs : List Event) (s : TrackState) (i : ℕ) (q : ℚ),
      s.timers.getD i none = some q →
      i < s.ended.length →
      Event.timerFire i ∉ evs →
      s.ended.getD i 0 + countAnim i evs < s.expected.getD i 0 →
      (runTrack s evs).timers.getD i none = some q := by
  intro evs
  induction evs with
  | nil => intro s i q ht _ _ _; exact ht
  | cons e rest ih =>
    intro s i q ht hlen hnf hlt
    have hnf' : Event.timerFire i ∉ rest := fun hmem => hnf (List.mem_cons_of_mem _ hmem)
    rw [runTrack_cons]
    cases e with
    | animEnd j =>
      by_cases hj : j = i
      · subst hj
        rw [countAnim_cons_self] at hlt
        cases hlj : s.listeners.getD j false with
        | false =>
          rw [step_animEnd_silent hlj]
          exact ih s j q ht hlen hnf' (by omega)
        | true =>
          rw [step_animEnd_heard hlj]
          simp only []
          have hend' :
              ((s.ended.set j (s.ended.getD j 0 + 1)).getD j 0) = s.ended.getD j 0 + 1 :=
            getD_set_self_of_lt _ _ _ hlen
          split
          next hge =>
            rw [show ({ s with ended := s.ended.set j (s.ended.getD j 0 + 1) } :
                TrackState).expected = s.expected from rfl, hend'] at hge
            omega
          next =>
            refine ih _ j q ht ?_ hnf' ?_
            · simpa [List.length_set] using hlen
            · show _ + countAnim j rest < s.expected.getD j 0
              rw [hend']
              omega
      · have hcnt : countAnim i (Event.animEnd j :: rest) = countAnim i rest :=
          countAnim_cons_animEnd_ne hj rest
        rw [hcnt] at hlt
        cases hlj : s.listeners.getD j false with
        | false =>
          rw [step_animEnd_silent hlj]
          exact ih s i q ht hlen hnf' hlt
        | true =>
          rw [step_animEnd_heard hlj]
          simp only []
          have hend_i :
              ((s.ended.set j (s.ended.getD j 0 + 1)).getD i 0) = s.ended.getD i 0 :=
            getD_set_ne _ _ _ hj
          have hlen' : i < (s.ended.set j (s.ended.getD j 0 + 1)).length := by
            simpa [List.length_set] using hlen
          have hine : i ≠ j := fun hij => hj hij.symm
          split
          next =>
            refine ih _ i q ?_ ?_ hnf' ?_
            · rw [markDone_timers_ne hine]; exact ht
            · rw [markDone_ended]; exact hlen'
            · rw [markDone_ended, markDone_expected]
              show _ + countAnim i rest < s.expected.getD i 0
              rw [hend_i]; exact hlt
          next =>
            refine ih _ i q ht hlen' hnf' ?_
            show _ + countAnim i rest < s.expected.getD i 0
            rw [hend_i]; exact hlt
    | timerFire j =>
      rw [step_timerFire]
      have hj : j ≠ i := fun hji => hnf (hji ▸ List.mem_cons_self _ _)
      have hine : i ≠ j := fun hij => hj hij.symm
      rw [countAnim_cons_timerFire] at hlt
      refine ih _ i q ?_ ?_ hnf' ?_
      · rw [markDone_timers_ne hine]; exact ht
      · rw [markDone_ended]; exact hlen
      · rw [markDone_ended, markDone_expected]; exact hlt

/-! ### Per-index facts about a freshly bound state -/

theorem getD_eq_getElem_of_lt {α : Type} (l : List α) {i : ℕ} (h : i < l.length) (d : α) :
    l.getD i d = l[i] := by
  rw [List.getD_eq_getElem?_getD, List.getElem?_eq_getElem h]
  rfl

theorem trackedB_true_iff (m : AnimMeta) :
    trackedB m = true ↔ m.expectedCount ≠ 0 ∧ m.maxMs ≠ 0 := by
  simp [trackedB, not_or]

theorem bind_tracked_facts {parent : El} {nested : List El} {st : TrackState}
    (h : bindCleanup parent nested = some st) {i : ℕ}
    (hl : st.listeners.getD i false = true) :
    ∃ hi : i < ((parent :: nested).map getAnimMeta).length,
      trackedB ((parent :: nested).map getAnimMeta)[i] = true ∧
      st.timers.getD i none =
        some ((((parent :: nested).map getAnimMeta)[i]).maxMs + 50) ∧
      st.expected.getD i 0 = (((parent :: nested).map getAnimMeta)[i]).expectedCount ∧
      0 < st.expected.getD i 0 ∧
      st.ended.getD i 0 = 0 ∧ i < st.ended.length ∧ i < st.listeners.length := by
  obtain ⟨-, hexp, hlst, htmr, hend, -⟩ := bindCleanup_some_fields h
  rcases lt_or_le i ((parent :: nested).map getAnimMeta).length with hi | hi
  · refine ⟨hi, ?_⟩
    have htr : trackedB ((parent :: nested).map getAnimMeta)[i] = true := by
      rw [hlst, getD_map_lt _ _ hi] at hl
      exact hl
    refine ⟨htr, ?_, ?_, ?_, ?_, ?_, ?_⟩
    · rw [htmr, getD_map_lt _ _ hi, if_pos htr]
    · rw [hexp, getD_map_lt _ _ hi]
    · rw [hexp, getD_map_lt _ _ hi]
      have := (trackedB_true_iff _).mp htr
      omega
    · rw [hend, getD_map_lt _ _ hi]
    · rw [hend, List.length_map]
      exact hi
    · rw [hlst, List.length_map]
      exact hi
  · rw [hlst, getD_map_ge _ _ hi] at hl
    exact absurd hl (by simp)

theorem bind_timer_some_listener {parent : El} {nested : List El} {st : TrackState}
    (h : bindCleanup parent nested = some st) {i : ℕ} {q : ℚ}
    (ht : st.timers.getD i none = some q) : st.listeners.getD i false = true := by
  obtain ⟨-, -, hlst, htmr, -, -⟩ := bindCleanup_some_fields h
  rcases lt_or_le i ((parent :: nested).map getAnimMeta).length with hi | hi
  · rw [htmr, getD_map_lt _ _ hi] at ht
    rw [hlst, getD_map_lt _ _ hi]
    by_contra hfalse
    rw [Bool.not_eq_true] at hfalse
    rw [if_neg (by rw [hfalse]; exact Bool.false_ne_true)] at ht
    exact Option.noConfusion ht
  · rw [htmr, getD_map_ge _ _ hi] at ht
    exact Option.noConfusion ht

/-! ### The claims -/

/-- C1: for every Root bound by `bindCleanup`, with any number N ≥ 0 of
tracked participants and under every interleaving of `animationend`
deliveries and fallback-timer expirations, `removeParentClass` runs at most
once, and exactly once along any trace that settles every tracked
participant (each tracked participant's fallback timer fires, or it
receives its expected number of finished-signals): the remaining-count
transition to ≤ 0 happens exactly once per bind cycle. -/
theorem finalization_exactly_once (parent : El) (nested : List El) (st : TrackState)
    (h : bindCleanup parent nested = some st) :
    (∀ evs : List Event, (runTrack st evs).removeCount ≤ 1) ∧
    (∀ evs : List Event, completeFor st evs → (runTrack st evs).removeCount = 1) := by
  have hinv := inv_bindCleanup h
  constructor
  · intro evs
    obtain ⟨-, h2, -⟩ := inv_runTrack evs st hinv
    rw [h2]
    split <;> omega
  · intro evs hc
    obtain ⟨h1, h2, -⟩ := inv_runTrack evs st hinv
    have hall : ∀ i, (runTrack st evs).timers.getD i none = none := by
      intro i
      cases htm : st.timers.getD i none with
      | none => exact runTrack_timers_none evs st htm
      | some q =>
        have hl := bind_timer_some_listener h htm
        obtain ⟨hi, htr, ht, hexp, hexppos, hend0, hendlen, hlstlen⟩ := bind_tracked_facts h hl
        rcases hc i hlstlen hl with htf | hcnt
        · obtain ⟨l1, l2, rfl⟩ := List.append_of_mem htf
          rw [runTrack_append, runTrack_cons, step_timerFire]
          exact runTrack_timers_none l2 _ (markDone_timers_self i _)
        · refine run_done_of_enough_ends evs st i hl hendlen ?_ ?_
          · rw [hend0]
            exact hexppos
          · rw [hend0]
            simpa using hcnt
    have hcnt0 : (runTrack st evs).timers.countP Option.isSome = 0 :=
      countP_eq_zero_of_all_none hall
    have hrem : (runTrack st evs).remaining = 0 := by
      rw [h1, hcnt0]
      rfl
    rw [h2, if_pos hrem]

/-- Witness for C1: binding `rootOneAnim` tracks one participant; the trace
consisting of its fallback-timer expiration is complete, and finalization
runs exactly once. -/
theorem finalization_exactly_once_witness :
    (runTrack stOneAnim [Event.timerFire 0]).removeCount = 1 :=
  (finalization_exactly_once rootOneAnim [] stOneAnim
      (by with_unfolding_all decide)).2
    [Event.timerFire 0] (by with_unfolding_all decide)

/-- C2: finalization never happens while some tracked participant is still
pending. After any trace in which some tracked participant `i` neither had
its fallback timer fire nor received its expected number of
finished-signals, `removeParentClass` has not run and the `xyz-in` marker is
still present; and along any trace, finalization has happened iff no
fallback timer is live any more — so only marking the last pending
participant done triggers it. -/
theorem no_premature_finalization (parent : El) (nested : List El) (st : TrackState)
    (h : bindCleanup parent nested = some st) :
    (∀ (evs : List Event) (i : ℕ), st.listeners.getD i false = true →
      Event.timerFire i ∉ evs → countAnim i evs < st.expected.getD i 0 →
        (runTrack st evs).removeCount = 0 ∧ "xyz-in" ∈ (runTrack st evs).parentClasses) ∧
    (∀ evs : List Event, (runTrack st evs).removeCount = 1 ↔
      (runTrack st evs).timers.countP Option.isSome = 0) := by
  have hinv := inv_bindCleanup h
  constructor
  · intro evs i hl hnf hlt
    obtain ⟨hi, htr, ht, hexp, hexppos, hend0, hendlen, hlstlen⟩ := bind_tracked_facts h hl
    have hpend := run_pending_of_not_enough evs st i _ ht hendlen hnf
      (by rw [hend0]; simpa using hlt)
    obtain ⟨h1, h2, h3⟩ := inv_runTrack evs st hinv
    have hpos := countP_pos_of_getD_some hpend
    have hrm : (runTrack st evs).removeCount = 0 := by
      rw [h2, if_neg (by omega)]
    exact ⟨hrm, h3.mpr hrm⟩
  · intro evs
    obtain ⟨h1, h2, -⟩ := inv_runTrack evs st hinv
    constructor
    · intro hrc
      rw [h2] at hrc
      split at hrc
      next hzero =>
        rw [h1] at hzero
        exact_mod_cast hzero
      next => exact absurd hrc (by simp)
    · intro hcnt
      have hrem : (runTrack st evs).remaining = 0 := by
        rw [h1, hcnt]
        rfl
      rw [h2, if_pos hrem]

/-- Witness for C2: two tracked participants; after only participant 0's
fallback timer fires, participant 1 is still pending, so the `xyz-in`
marker is still present and finalization has not run. -/
theorem no_premature_finalization_witness :
    (runTrack stTwoAnim [Event.timerFire 0]).removeCount = 0 ∧
    "xyz-in" ∈ (runTrack stTwoAnim [Event.timerFire 0]).parentClasses :=
  (no_premature_finalization rootOneAnim [nestedOneAnim] stTwoAnim
      (by with_unfolding_all decide)).1
    [Event.timerFire 0] 1 (by with_unfolding_all decide)
    (by with_unfolding_all decide) (by with_unfolding_all decide)

/-- C3: every tracked participant's fallback timer is created at bind time
with delay exactly `maxMs + 50`, and delivering its expiration — at any
point, after any other events — leaves the participant marked done (its
entry is gone from the pending-timer map), so a participant whose
finished-signals never fire is marked done no later than `maxMs + 50`
milliseconds after registration. -/
theorem fallback_timer_bound (parent : El) (nested : List El) (st : TrackState) (i : ℕ)
    (h : bindCleanup parent nested = some st)
    (hl : st.listeners.getD i false = true) :
    st.timers.getD i none =
      some ((((parent :: nested).map getAnimMeta).getD i ⟨0, 0⟩).maxMs + 50) ∧
    ∀ evs : List Event,
      (runTrack st (evs ++ [Event.timerFire i])).timers.getD i none = none := by
  obtain ⟨hi, htr, ht, -, -, -, -, -⟩ := bind_tracked_facts h hl
  constructor
  · rw [ht, getD_eq_getElem_of_lt _ hi]
  · intro evs
    rw [runTrack_append, runTrack_cons, step_timerFire, runTrack_nil]
    exact markDone_timers_self i _

/-- Witness for C3: the lone participant of `rootOneAnim` has `maxMs = 1000`
and its fallback timer delay is exactly `1050`; firing the timer marks it
done. -/
theorem fallback_timer_bound_witness :
    stOneAnim.timers.getD 0 none =
      some ((((rootOneAnim :: ([] : List El)).map getAnimMeta).getD 0 ⟨0, 0⟩).maxMs + 50) ∧
    (runTrack stOneAnim ([] ++ [Event.timerFire 0])).timers.getD 0 none = none :=
  ⟨(fallback_timer_bound rootOneAnim [] stOneAnim 0 (by with_unfolding_all decide)
      (by with_unfolding_all decide)).1,
   (fallback_timer_bound rootOneAnim [] stOneAnim 0 (by with_unfolding_all decide)
      (by with_unfolding_all decide)).2 []⟩

/-- Counterexample to C4 as stated: `rootNegDelay` declares `animation: a 1s
-2s`, so the Animation Metadata Reader returns `expectedCount = 1 > 0` —
yet `bindCleanup` does not register the participant (no timer, no listener,
remaining-count 0, immediate finalization), because the source also skips
participants with `maxMs === 0`. -/
theorem registration_not_expectedCount_alone :
    0 < (getAnimMeta rootNegDelay).expectedCount ∧
    bindCleanup rootNegDelay [] = some stNegDelay ∧
    stNegDelay.timers.getD 0 none = none ∧
    stNegDelay.listeners.getD 0 false = false ∧
    stNegDelay.remaining = 0 ∧ stNegDelay.removeCount = 1 := by
  with_unfolding_all decide

/-- C4 amended: a participant enumerated at bind time is registered for
tracking (fallback timer with delay `maxMs + 50`, `animationend` listener,
+1 on the remaining-count) if and only if the Animation Metadata Reader
returned `expectedCount > 0` **and** `maxMs ≠ 0` for it; otherwise it
contributes nothing — no timer, no listener, no remaining-count share. -/
theorem registered_iff_nontrivial (parent : El) (nested : List El) (st : TrackState) (i : ℕ)
    (h : bindCleanup parent nested = some st)
    (hi : i < (parent :: nested).length) :
    ((0 < (((parent :: nested).map getAnimMeta).getD i ⟨0, 0⟩).expectedCount ∧
        (((parent :: nested).map getAnimMeta).getD i ⟨0, 0⟩).maxMs ≠ 0) →
      st.timers.getD i none =
          some ((((parent :: nested).map getAnimMeta).getD i ⟨0, 0⟩).maxMs + 50) ∧
        st.listeners.getD i false = true) ∧
    (¬(0 < (((parent :: nested).map getAnimMeta).getD i ⟨0, 0⟩).expectedCount ∧
        (((parent :: nested).map getAnimMeta).getD i ⟨0, 0⟩).maxMs ≠ 0) →
      st.timers.getD i none = none ∧ st.listeners.getD i false = false) ∧
    st.remaining = (((parent :: nested).map getAnimMeta).countP trackedB : ℤ) := by
  obtain ⟨-, -, hlst, htmr, -, hrem⟩ := bindCleanup_some_fields h
  have hi' : i < ((parent :: nested).map getAnimMeta).length := by
    rw [List.length_map]
    exact hi
  have hgetD : (((parent :: nested).map getAnimMeta).getD i ⟨0, 0⟩) =
      ((parent :: nested).map getAnimMeta)[i] := getD_eq_getElem_of_lt _ hi' _
  refine ⟨?_, ?_, hrem⟩
  · intro ⟨hpos, hmax⟩
    have htr : trackedB ((parent :: nested).map getAnimMeta)[i] = true := by
      rw [trackedB_true_iff]
      rw [hgetD] at hpos hmax
      exact ⟨by omega, hmax⟩
    constructor
    · rw [htmr, getD_map_lt _ _ hi', if_pos htr, hgetD]
    · rw [hlst, getD_map_lt _ _ hi']
      exact htr
  · intro hntrk
    have htr : trackedB ((parent :: nested).map getAnimMeta)[i] = false := by
      by_contra hc
      rw [Bool.not_eq_false, trackedB_true_iff] at hc
      rw [hgetD] at hntrk
      exact hntrk ⟨by omega, hc.2⟩
    constructor
    · rw [htmr, getD_map_lt _ _ hi', if_neg (by rw [htr]; exact Bool.false_ne_true)]
    · rw [hlst, getD_map_lt _ _ hi']
      exact htr

/-- Witness for C4 amended: `rootOneAnim`'s lone participant has
`expectedCount = 1` and `maxMs = 1000 ≠ 0`, so it gets a timer of delay
1050 and a listener. -/
theorem registered_iff_nontrivial_witness :
    stOneAnim.timers.getD 0 none =
      some ((((rootOneAnim :: ([] : List El)).map getAnimMeta).getD 0 ⟨0, 0⟩).maxMs + 50) ∧
    stOneAnim.listeners.getD 0 false = true :=
  (registered_iff_nontrivial rootOneAnim [] stOneAnim 0 (by with_unfolding_all decide)
      (by decide)).1 (by with_unfolding_all decide)

/-- Counterexample to C5 as stated: for `rootNegDelay` (`animation: a 1s
-2s`), the spec-side reader — "maxMs is the maximum of duration + delay
across the filtered list (0 if empty)" — gives `-1000`, but the source folds
`Math.max` from 0 and returns `0`. -/
theorem maxMs_not_plain_maximum :
    getAnimMeta rootNegDelay ≠ specGetAnimMeta rootNegDelay ∧
    (getAnimMeta rootNegDelay).maxMs = 0 ∧
    (specGetAnimMeta rootNegDelay).maxMs = -1000 := by
  with_unfolding_all decide

/-- C6: any error while reading an element's resolved style is caught and
`getAnimMeta` returns `expectedCount 0, maxMs 0`; no exception reaches the
caller, which then treats the element as having no active animations. -/
theorem style_error_fail_open (el : El) (h : el.style = none) :
    getAnimMeta el = { expectedCount := 0, maxMs := 0 } := by
  unfold getAnimMeta
  rw [h]

/-- Witness for C6: a root whose style read throws yields the trivial
metadata. -/
theorem style_error_fail_open_witness :
    getAnimMeta rootStyleThrows = { expectedCount := 0, maxMs := 0 } :=
  style_error_fail_open rootStyleThrows rfl

/-- C7: `bindCleanup` is guarded and idempotent. If the element is not an
`Element`, lacks the `xyz-in` marker, or is already marked bound, it is a
no-op (`none`: no state, no listeners, no timers). A successful bind sets
the bound marker in its resulting state, and any root carrying the bound
marker is skipped by a later scan — so a second scan over a scope containing
an already-bound root creates no second set of listeners or timers for it. -/
theorem bind_guarded_idempotent (parent : El) (nested : List El) :
    ((parent.isElement = false ∨ parent.classList.contains "xyz-in" = false ∨
        parent.xyzCleanupBound = some "1") → bindCleanup parent nested = none) ∧
    (∀ st, bindCleanup parent nested = some st → st.parentBound = some "1") ∧
    (parent.xyzCleanupBound = some "1" → ∀ nested' : List El,
      bindCleanup parent nested' = none) := by
  refine ⟨?_, ?_, ?_⟩
  · rintro (hg | hg | hg)
    · simp [bindCleanup, hg]
    · have hg' : "xyz-in" ∉ parent.classList := by simpa using hg
      simp [bindCleanup, hg']
    · simp [bindCleanup, hg]
  · intro st h
    exact (bindCleanup_some_fields h).1
  · intro hg nested'
    simp [bindCleanup, hg]

/-- Witness for C7: binding an already-bound root is a no-op, and the state
produced by binding a fresh root carries the bound marker. -/
theorem bind_guarded_idempotent_witness :
    bindCleanup boundRoot [] = none ∧ stOneAnim.parentBound = some "1" :=
  ⟨(bind_guarded_idempotent boundRoot []).2.2 rfl [],
   (bind_guarded_idempotent rootOneAnim []).2.1 stOneAnim (by with_unfolding_all decide)⟩

/-- Counterexample to C8 as stated: passing a scope without
`querySelectorAll` does not make the scan a no-op — the source falls back to
`document`. With a document containing one unbound `.xyz-in` root, the call
with an unqueryable scope binds that root (state is changed: the root is
marked bound and finalized). -/
theorem invalid_scope_not_noop :
    xyzCleanup (some badScope) docOneRoot = [some stNoAnim] ∧
    xyzCleanup (some badScope) docOneRoot ≠ [] := by
  with_unfolding_all decide

/-- C8 amended: if the scope passed to `xyzCleanup` cannot be queried, the
scan falls back to the whole document, exactly as if no scope had been
passed; the invalid scope itself contributes nothing. -/
theorem invalid_scope_falls_back (r doc : Scope) (h : r.canQuery = false) :
    xyzCleanup (some r) doc = xyzCleanup none doc := by
  simp [xyzCleanup, h]

/-- Witness for C8 amended: scanning with the unqueryable scope equals
scanning the document. -/
theorem invalid_scope_falls_back_witness :
    xyzCleanup (some badScope) docOneRoot = xyzCleanup none docOneRoot :=
  invalid_scope_falls_back badScope docOneRoot rfl

/-- C9: the fast path. If every participant of a bound root (itself and all
nested participants) has zero non-trivial animations, finalization happens
synchronously inside the same `bindCleanup` call: the remaining-count is 0
after enumeration, `removeParentClass` has already run (marker removed),
and no timer or listener was created. -/
theorem fast_path_synchronous (parent : El) (nested : List El) (st : TrackState)
    (h : bindCleanup parent nested = some st)
    (hz : ∀ el ∈ parent :: nested, (getAnimMeta el).expectedCount = 0) :
    st.remaining = 0 ∧ st.removeCount = 1 ∧ "xyz-in" ∉ st.parentClasses ∧
    (∀ i, st.timers.getD i none = none) ∧ (∀ i, st.listeners.getD i false = false) := by
  obtain ⟨-, -, hlst, htmr, -, hrem⟩ := bindCleanup_some_fields h
  have htrk : ∀ m ∈ (parent :: nested).map getAnimMeta, trackedB m = false := by
    intro m hm
    obtain ⟨el, hel, rfl⟩ := List.mem_map.mp hm
    simp [trackedB, hz el hel]
  have hcnt : ((parent :: nested).map getAnimMeta).countP trackedB = 0 :=
    List.countP_eq_zero.mpr (by intro m hm; simp [htrk m hm])
  have hrem0 : st.remaining = 0 := by
    rw [hrem, hcnt]
    rfl
  obtain ⟨-, h2, h3⟩ := inv_bindCleanup h
  have hrc : st.removeCount = 1 := by
    rw [h2, if_pos hrem0]
  refine ⟨hrem0, hrc, ?_, ?_, ?_⟩
  · intro hmem
    have := h3.mp hmem
    omega
  · intro i
    rcases lt_or_le i ((parent :: nested).map getAnimMeta).length with hi | hi
    · rw [htmr, getD_map_lt _ _ hi,
        if_neg (by rw [htrk _ (List.getElem_mem hi)]; exact Bool.false_ne_true)]
    · rw [htmr, getD_map_ge _ _ hi]
  · intro i
    rcases lt_or_le i ((parent :: nested).map getAnimMeta).length with hi | hi
    · rw [hlst, getD_map_lt _ _ hi]
      exact htrk _ (List.getElem_mem hi)
    · rw [hlst, getD_map_ge _ _ hi]

/-- Witness for C9: `rootNoAnim` (animation-name "none") finalizes
synchronously at bind time with no timer and no listener. -/
theorem fast_path_synchronous_witness :
    stNoAnim.remaining = 0 ∧ stNoAnim.removeCount = 1 ∧
    "xyz-in" ∉ stNoAnim.parentClasses :=
  ⟨(fast_path_synchronous rootNoAnim [] stNoAnim (by with_unfolding_all decide)
      (by with_unfolding_all decide)).1,
   (fast_path_synchronous rootNoAnim [] stNoAnim (by with_unfolding_all decide)
      (by with_unfolding_all decide)).2.1,
   (fast_path_synchronous rootNoAnim [] stNoAnim (by with_unfolding_all decide)
      (by with_unfolding_all decide)).2.2.1⟩

/-- Every `getAnimMeta` result is the length and the from-zero max-fold of
some filtered animation list. -/
theorem animMeta_shape (el : El) :
    ∃ l : List AnimRec,
      getAnimMeta el =
        { expectedCount := l.length
          maxMs := l.foldl (fun acc a => max acc (a.duration + a.delay)) 0 } := by
  cases hstyle : el.style with
  | none =>
    refine ⟨[], ?_⟩
    unfold getAnimMeta
    rw [hstyle]
    rfl
  | some cs =>
    refine ⟨((((jsSplitComma cs.animationName).map jsTrim).mapIdx fun i n =>
        ({ name := n, duration := ((jsSplitComma cs.animationDuration).map toMs).getD i 0
           delay := ((jsSplitComma cs.animationDelay).map toMs).getD i 0 } : AnimRec)).filter
      fun a => decide (a.name ≠ "" ∧ a.name ≠ "none" ∧ 0 < a.duration)), ?_⟩
    unfold getAnimMeta
    rw [hstyle]

/-- C5 amended: for every element whose computed animation durations are
non-negative (as the browser's style system guarantees), `getAnimMeta`
agrees with the spec-side reader in which `maxMs` is amended to the maximum
of 0 and the `duration + delay` values: filtering and `expectedCount` are as
the spec states, and token conversion is seconds × 1000 / milliseconds
as-is / unparsable ↦ 0. -/
theorem getAnimMeta_refines_amended_spec (el : El) (cs : ComputedStyle)
    (hstyle : el.style = some cs)
    (hdur : ∀ d ∈ (jsSplitComma cs.animationDuration).map toMs, (0 : ℚ) ≤ d) :
    getAnimMeta el = specGetAnimMetaAmended el := by
  unfold getAnimMeta specGetAnimMetaAmended
  rw [hstyle]
  have hfilter :
      ((((jsSplitComma cs.animationName).map jsTrim).mapIdx fun i n =>
          ({ name := n, duration := ((jsSplitComma cs.animationDuration).map toMs).getD i 0
             delay := ((jsSplitComma cs.animationDelay).map toMs).getD i 0 } : AnimRec)).filter
        fun a => decide (a.name ≠ "" ∧ a.name ≠ "none" ∧ 0 < a.duration)) =
      ((((jsSplitComma cs.animationName).map jsTrim).mapIdx fun i n =>
          ({ name := n, duration := ((jsSplitComma cs.animationDuration).map toMs).getD i 0
             delay := ((jsSplitComma cs.animationDelay).map toMs).getD i 0 } : AnimRec)).filter
        fun a => decide (a.name ≠ "" ∧ a.name ≠ "none" ∧ a.duration ≠ 0)) := by
    apply List.filter_congr
    intro a ha
    have hdge : (0 : ℚ) ≤ a.duration := by
      rw [List.mapIdx_eq_enum_map] at ha
      obtain ⟨⟨i, n⟩, hmem, rfl⟩ := List.mem_map.mp ha
      show (0 : ℚ) ≤ ((jsSplitComma cs.animationDuration).map toMs).getD i 0
      rcases lt_or_le i ((jsSplitComma cs.animationDuration).map toMs).length with hi | hi
      · rw [getD_eq_getElem_of_lt _ hi]
        exact hdur _ (List.getElem_mem hi)
      · rw [List.getD_eq_getElem?_getD, List.getElem?_eq_none hi]
        rfl
    refine decide_eq_decide.mpr ?_
    constructor
    · rintro ⟨x, y, z⟩
      exact ⟨x, y, ne_of_gt z⟩
    · rintro ⟨x, y, z⟩
      exact ⟨x, y, lt_of_le_of_ne hdge (Ne.symm z)⟩
  show ({ expectedCount := _, maxMs := _ } : AnimMeta) = { expectedCount := _, maxMs := _ }
  rw [hfilter, ← List.foldl_map (fun a : AnimRec => a.duration + a.delay) max, foldl_max_zero]

/-- Witness for C5 amended: on `rootOneAnim` (duration "1s" ≥ 0) the source
reader and the amended spec reader agree. -/
theorem getAnimMeta_refines_amended_spec_witness :
    getAnimMeta rootOneAnim = specGetAnimMetaAmended rootOneAnim :=
  getAnimMeta_refines_amended_spec rootOneAnim ⟨"a", "1s", "0s"⟩ rfl
    (by with_unfolding_all decide)

/-- C10: `getAnimMeta` always returns a non-negative `maxMs`, even when a
negative `animation-delay` makes `duration + delay` negative, because the
maximum is folded starting from 0; `expectedCount = 0` forces `maxMs = 0`,
while `expectedCount > 0` with `maxMs = 0` does occur (at `rootNegDelay`,
declaring `animation: a 1s -2s`). -/
theorem maxMs_fold_from_zero_nonneg :
    (∀ el : El, 0 ≤ (getAnimMeta el).maxMs ∧
      ((getAnimMeta el).expectedCount = 0 → (getAnimMeta el).maxMs = 0)) ∧
    0 < (getAnimMeta rootNegDelay).expectedCount ∧
    (getAnimMeta rootNegDelay).maxMs = 0 := by
  refine ⟨?_, ?_⟩
  · intro el
    obtain ⟨l, hl⟩ := animMeta_shape el
    rw [hl]
    refine ⟨le_foldl_max l 0, ?_⟩
    intro hlen
    have hnil : l = [] := List.length_eq_zero.mp hlen
    rw [hnil]
    rfl
  · with_unfolding_all decide

/-- Witness for C10: `rootNoAnim` has `expectedCount = 0` and hence
`maxMs = 0` (and `maxMs` is non-negative). -/
theorem maxMs_fold_from_zero_nonneg_witness :
    0 ≤ (getAnimMeta rootNoAnim).maxMs ∧ (getAnimMeta rootNoAnim).maxMs = 0 :=
  ⟨(maxMs_fold_from_zero_nonneg.1 rootNoAnim).1,
   (maxMs_fold_from_zero_nonneg.1 rootNoAnim).2 (by with_unfolding_all decide)⟩

end Xyz
